import Mathlib

/-!
Verification of the Queens puzzle solver (`src/content.js`).

The solver is a depth-first backtracking search over board cells with three
optimizations: forward-check pruning, a most-constrained-first candidate
ordering, and incremental diagonal-adjacency counters.  We embed the solver
shallowly: the mutable search state of the JavaScript code becomes an explicit
state record threaded through the recursion, and the unbounded recursion
becomes a fuel-indexed recursion (the fuel `rows + 1` is shown sufficient).
-/

namespace Queens

/-- A puzzle instance, as produced by `buildGame` in `content.js`:
dimensions, the list of distinct color-region identifiers, and the map from
row-major cell index to its color identifier. -/
structure Game where
  rows : Nat
  cols : Nat
  colors : List Nat
  idxToColor : Nat → Nat

/-- The mutable search state of `solve`/`solveBacktracking` in `content.js`:
the row/column/color "used" flags, the per-cell diagonal adjacency counters
(`adjacentToUsed`), and the partial solution list, made explicit. -/
@[ext]
structure SState where
  rowUsed : Nat → Bool
  colUsed : Nat → Bool
  colorUsed : Nat → Bool
  adjacentToUsed : Nat → Int
  solution : List Nat

/-- The fresh search state built at the top of `solve` (content.js lines
25-36): everything unused, all adjacency counters zero, empty solution. -/
def initState : SState :=
  { rowUsed := fun _ => false
    colUsed := fun _ => false
    colorUsed := fun _ => false
    adjacentToUsed := fun _ => 0
    solution := [] }

/-- Row-major cell index, `row * game.cols + col` (content.js line 68). -/
def cellIdx (g : Game) (row col : Nat) : Nat := row * g.cols + col

/-- The row of a cell index (`index / cols`). -/
def cellRow (g : Game) (idx : Nat) : Nat := idx / g.cols

/-- The column of a cell index (`index % cols`). -/
def cellCol (g : Game) (idx : Nat) : Nat := idx % g.cols

/-- `getAdjacents` (content.js lines 106-129): the on-board diagonal
neighbours of `(row, col)`, as cell indices, in the source's offset order. -/
def getAdjacents (g : Game) (row col : Nat) : List Nat :=
  ([(-1, -1), (-1, 1), (1, -1), (1, 1)] : List (Int × Int)).filterMap fun d =>
    if 0 ≤ (row : Int) + d.1 ∧ (row : Int) + d.1 < (g.rows : Int) ∧
        0 ≤ (col : Int) + d.2 ∧ (col : Int) + d.2 < (g.cols : Int) then
      some (((row : Int) + d.1).toNat * g.cols + ((col : Int) + d.2).toNat)
    else none

/-- `solved` (content.js lines 131-137): all rows, all columns and all color
regions are marked used. -/
def solved (g : Game) (st : SState) : Bool :=
  ((List.range g.rows).all fun r => st.rowUsed r) &&
  ((List.range g.cols).all fun c => st.colUsed c) &&
  (g.colors.all fun c => st.colorUsed c)

/-- The candidate filter of `getCandidates` (content.js lines 151-156): row,
column and color region unused, and zero adjacency pressure. -/
def cellOk (g : Game) (st : SState) (row col : Nat) : Bool :=
  !st.rowUsed row && !st.colUsed col &&
  !st.colorUsed (g.idxToColor (cellIdx g row col)) &&
  (st.adjacentToUsed (cellIdx g row col) == 0)

/-- The unsorted candidate list built by the row-major double loop of
`getCandidates` (content.js lines 147-163). -/
def candList (g : Game) (st : SState) : List (Nat × Nat) :=
  (List.range g.rows).flatMap fun row =>
    (List.range g.cols).filterMap fun col =>
      if cellOk g st row col then some (row, col) else none

/-- `rowToSpots[row]` after the tally loop of `getCandidates`: how many
candidate cells lie in `row`. -/
def rowToSpots (g : Game) (st : SState) (row : Nat) : Nat :=
  (candList g st).countP fun p => p.1 == row

/-- `colToSpots[col]` after the tally loop of `getCandidates`. -/
def colToSpots (g : Game) (st : SState) (col : Nat) : Nat :=
  (candList g st).countP fun p => p.2 == col

/-- `colorToSpots[color]` after the tally loop of `getCandidates`. -/
def colorToSpots (g : Game) (st : SState) (color : Nat) : Nat :=
  (candList g st).countP fun p => g.idxToColor (cellIdx g p.1 p.2) == color

/-- `forwardCheckFailure` (content.js lines 192-217): some unused row, unused
column or unused color region has zero remaining candidate spots. -/
def forwardCheckFailure (g : Game) (st : SState) : Bool :=
  ((List.range g.rows).any fun row => !st.rowUsed row && rowToSpots g st row == 0) ||
  ((List.range g.cols).any fun col => !st.colUsed col && colToSpots g st col == 0) ||
  (g.colors.any fun color => !st.colorUsed color && colorToSpots g st color == 0)

/-- The sort key `key` of `getCandidates` (content.js lines 179-185): the
minimum of the row, column and color spot counts of the candidate. -/
def candKey (g : Game) (st : SState) (p : Nat × Nat) : Nat :=
  min (rowToSpots g st p.1)
    (min (colToSpots g st p.2) (colorToSpots g st (g.idxToColor (cellIdx g p.1 p.2))))

/-- `getCandidates` (content.js lines 139-190): the filtered candidate list,
emptied on forward-check failure, otherwise sorted stably by ascending key
(JavaScript `Array.prototype.sort` with the comparator `key(a) - key(b)` is a
stable sort by the numeric key). -/
def getCandidates (g : Game) (st : SState) : List (Nat × Nat) :=
  if forwardCheckFailure g st then []
  else List.insertionSort (fun a b => candKey g st a ≤ candKey g st b) (candList g st)

/-- The placement block of `solveBacktracking` (content.js lines 71-78): mark
row, column and color used, bump the adjacency counter of each on-board
diagonal neighbour once per occurrence, append the cell index. -/
def place (g : Game) (row col : Nat) (st : SState) : SState :=
  { rowUsed := fun r => if r = row then true else st.rowUsed r
    colUsed := fun c => if c = col then true else st.colUsed c
    colorUsed := fun c =>
      if c = g.idxToColor (cellIdx g row col) then true else st.colorUsed c
    adjacentToUsed := fun i => st.adjacentToUsed i + ((getAdjacents g row col).count i : Int)
    solution := st.solution ++ [cellIdx g row col] }

/-- The backtrack block of `solveBacktracking` (content.js lines 93-100): the
exact inverse of `place`. -/
def unplace (g : Game) (row col : Nat) (st : SState) : SState :=
  { rowUsed := fun r => if r = row then false else st.rowUsed r
    colUsed := fun c => if c = col then false else st.colUsed c
    colorUsed := fun c =>
      if c = g.idxToColor (cellIdx g row col) then false else st.colorUsed c
    adjacentToUsed := fun i => st.adjacentToUsed i - ((getAdjacents g row col).count i : Int)
    solution := st.solution.dropLast }

/-- The candidate loop of `solveBacktracking` (content.js lines 61-101):
place each candidate in turn, recurse through `recur`, propagate success
without undoing, and otherwise unplace and continue.  The state returned by
the failed recursive call is the one the backtrack block mutates, exactly as
the shared mutable state of the JavaScript code. -/
def tryCandidates (g : Game) (recur : SState → Bool × SState) :
    List (Nat × Nat) → SState → Bool × SState
  | [], st => (false, st)
  | p :: rest, st =>
    match recur (place g p.1 p.2 st) with
    | (true, st2) => (true, st2)
    | (false, st2) => tryCandidates g recur rest (unplace g p.1 p.2 st2)

/-- The recursive search `solveBacktracking` (content.js lines 49-104),
parameterized by the candidate generator (so that the forward-check-free
variant demanded by the spec shares the recursion) and indexed by fuel; the
fuel branch is never taken from `solve`'s entry state (see the fuel lemmas). -/
def solveBT (cand : Game → SState → List (Nat × Nat)) (g : Game) :
    Nat → SState → Bool × SState
  | 0, st => (false, st)
  | fuel + 1, st =>
    if solved g st then (true, st)
    else tryCandidates g (solveBT cand g fuel) (cand g st) st

/-- `solveBacktracking` with the source's candidate generator. -/
def solveBacktracking (g : Game) (fuel : Nat) (st : SState) : Bool × SState :=
  solveBT getCandidates g fuel st

/-- `solve` (content.js lines 24-47): run the search from the fresh state and
return the final solution list as a set (`new Set(solution)`). -/
def solve (g : Game) : Finset Nat :=
  ((solveBacktracking g (g.rows + 1) initState).2.solution).toFinset

/-- Whether the search reported success (the boolean returned by the root
`solveBacktracking` call inside `solve`). -/
def solveFound (g : Game) : Bool :=
  (solveBacktracking g (g.rows + 1) initState).1

/-- Modelled from the spec: "disabling the forward-check pruning step"
(spec §8, forward-check soundness) — `getCandidates` with the
`forwardCheckFailure` early exit removed and everything else unchanged. -/
def getCandidatesNoForwardCheck (g : Game) (st : SState) : List (Nat × Nat) :=
  List.insertionSort (fun a b => candKey g st a ≤ candKey g st b) (candList g st)

/-- The success flag of the solver run with forward checking disabled. -/
def solveFoundNoForwardCheck (g : Game) : Bool :=
  (solveBT getCandidatesNoForwardCheck g (g.rows + 1) initState).1

/-- Diagonal adjacency of two cell indices, as the spec states it: row
indices differing by exactly 1 and column indices differing by exactly 1. -/
def DiagTouch (g : Game) (i j : Nat) : Bool :=
  (cellRow g i == cellRow g j + 1 || cellRow g j == cellRow g i + 1) &&
  (cellCol g i == cellCol g j + 1 || cellCol g j == cellCol g i + 1)

/-- The number of placed markers diagonally adjacent to cell `i`. -/
def diagPressure (g : Game) (sol : List Nat) (i : Nat) : Nat :=
  sol.countP fun idx => DiagTouch g idx i

/-- The search state determined by a placement list: used flags are exactly
the rows/columns/colors of the placed cells, and each adjacency counter is
the total number of times its cell occurs among the placed cells' on-board
diagonal neighbours. -/
def stateOf (g : Game) (sol : List Nat) : SState :=
  { rowUsed := fun r => sol.any fun idx => cellRow g idx == r
    colUsed := fun c => sol.any fun idx => cellCol g idx == c
    colorUsed := fun c => sol.any fun idx => g.idxToColor idx == c
    adjacentToUsed := fun i =>
      ((sol.map fun idx => (getAdjacents g (cellRow g idx) (cellCol g idx)).count i).sum : Nat)
    solution := sol }

/-- Geometric well-formedness of a partial placement: every cell is on the
board, rows, columns and colors are pairwise distinct, and no two cells are
diagonally adjacent. -/
def PartialValid (g : Game) (sol : List Nat) : Prop :=
  (∀ idx ∈ sol, cellRow g idx < g.rows ∧ cellCol g idx < g.cols) ∧
  (sol.map (cellRow g)).Nodup ∧
  (sol.map (cellCol g)).Nodup ∧
  (sol.map g.idxToColor).Nodup ∧
  sol.Pairwise fun i j => DiagTouch g i j = false

instance (g : Game) (sol : List Nat) : Decidable (PartialValid g sol) := by
  unfold PartialValid; infer_instance

/-- The solver's state invariant: the state components agree with the
placement list, and the placement list is geometrically well-formed. -/
def Inv (g : Game) (st : SState) : Prop :=
  st = stateOf g st.solution ∧ PartialValid g st.solution

/-- A valid full placement, as the spec's brute-force oracle states it: a set
of on-board cells with exactly one per row, one per column, one per color
region, and no two diagonally adjacent. -/
def ValidPlacement (g : Game) (S : Finset Nat) : Prop :=
  (∀ i ∈ S, i < g.rows * g.cols) ∧
  (∀ r, r < g.rows → ∃ i ∈ S, cellRow g i = r) ∧
  (∀ i ∈ S, ∀ j ∈ S, cellRow g i = cellRow g j → i = j) ∧
  (∀ c, c < g.cols → ∃ i ∈ S, cellCol g i = c) ∧
  (∀ i ∈ S, ∀ j ∈ S, cellCol g i = cellCol g j → i = j) ∧
  (∀ c ∈ g.colors, ∃ i ∈ S, g.idxToColor i = c) ∧
  (∀ i ∈ S, ∀ j ∈ S, g.idxToColor i = g.idxToColor j → i = j) ∧
  (∀ i ∈ S, ∀ j ∈ S, DiagTouch g i j = false)

/-- Faithfulness domain of the embedding (the spec's Board invariant): every
cell's color identifier belongs to the declared color list, and the color
identifiers index the spot array allocated with one slot per color. -/
def Game.WF (g : Game) : Prop :=
  (∀ idx, idx < g.rows * g.cols → g.idxToColor idx ∈ g.colors) ∧
  (∀ c ∈ g.colors, c < g.colors.length)

/-! ### Cell index arithmetic -/

theorem cellRow_cellIdx (g : Game) (r c : Nat) (hc : c < g.cols) :
    cellRow g (cellIdx g r c) = r := by
  unfold cellRow cellIdx
  rw [Nat.add_comm, Nat.add_mul_div_right _ _ (Nat.lt_of_le_of_lt (Nat.zero_le c) hc),
    Nat.div_eq_of_lt hc, Nat.zero_add]

theorem cellCol_cellIdx (g : Game) (r c : Nat) (hc : c < g.cols) :
    cellCol g (cellIdx g r c) = c := by
  unfold cellCol cellIdx
  rw [Nat.add_comm, Nat.add_mul_mod_self_right, Nat.mod_eq_of_lt hc]

theorem cellIdx_decomp (g : Game) (idx : Nat) :
    cellIdx g (cellRow g idx) (cellCol g idx) = idx := by
  unfold cellIdx cellRow cellCol
  rw [Nat.mul_comm]
  exact Nat.div_add_mod idx g.cols

theorem cellIdx_inj (g : Game) {r1 c1 r2 c2 : Nat} (h1 : c1 < g.cols) (h2 : c2 < g.cols)
    (h : cellIdx g r1 c1 = cellIdx g r2 c2) : r1 = r2 ∧ c1 = c2 := by
  have hr : cellRow g (cellIdx g r1 c1) = cellRow g (cellIdx g r2 c2) := by rw [h]
  have hc : cellCol g (cellIdx g r1 c1) = cellCol g (cellIdx g r2 c2) := by rw [h]
  rw [cellRow_cellIdx g _ _ h1, cellRow_cellIdx g _ _ h2] at hr
  rw [cellCol_cellIdx g _ _ h1, cellCol_cellIdx g _ _ h2] at hc
  exact ⟨hr, hc⟩

theorem cellIdx_lt (g : Game) {r c : Nat} (hr : r < g.rows) (hc : c < g.cols) :
    cellIdx g r c < g.rows * g.cols := by
  unfold cellIdx
  calc r * g.cols + c < r * g.cols + g.cols := by omega
    _ = (r + 1) * g.cols := by ring
    _ ≤ g.rows * g.cols := Nat.mul_le_mul_right _ hr

theorem cols_pos_of_lt (g : Game) {idx : Nat} (h : idx < g.rows * g.cols) : 0 < g.cols := by
  rcases Nat.eq_zero_or_pos g.cols with h0 | h0
  · rw [h0, Nat.mul_zero] at h
    exact absurd h (Nat.not_lt_zero _)
  · exact h0

theorem cellRow_lt (g : Game) {idx : Nat} (h : idx < g.rows * g.cols) :
    cellRow g idx < g.rows :=
  (Nat.div_lt_iff_lt_mul (cols_pos_of_lt g h)).2 h

theorem cellCol_lt (g : Game) {idx : Nat} (h : idx < g.rows * g.cols) :
    cellCol g idx < g.cols :=
  Nat.mod_lt _ (cols_pos_of_lt g h)

/-! ### The diagonal-neighbour list -/

theorem mem_getAdjacents (g : Game) (row col i : Nat) :
    i ∈ getAdjacents g row col ↔
      ∃ r c, r < g.rows ∧ c < g.cols ∧ i = cellIdx g r c ∧
        (r + 1 = row ∨ r = row + 1) ∧ (c + 1 = col ∨ c = col + 1) := by
  rw [getAdjacents, List.mem_filterMap]
  constructor
  · rintro ⟨d, hd, hfd⟩
    rw [Option.ite_none_right_eq_some, Option.some_inj] at hfd
    obtain ⟨⟨hr0, hr1, hc0, hc1⟩, hval⟩ := hfd
    refine ⟨((row : Int) + d.1).toNat, ((col : Int) + d.2).toNat, by omega, by omega,
      hval.symm, ?_, ?_⟩
    · fin_cases hd <;> simp_all <;> omega
    · fin_cases hd <;> simp_all <;> omega
  · rintro ⟨r, c, hr, hc, hval, hrel, hcel⟩
    rcases hrel with hrel | hrel <;> rcases hcel with hcel | hcel
    · exact ⟨(-1, -1), by simp, by
        rw [Option.ite_none_right_eq_some, Option.some_inj]
        refine ⟨by constructor <;> [omega; constructor <;> [omega; constructor <;> omega]], ?_⟩
        have h1 : ((row : Int) + -1).toNat = r := by omega
        have h2 : ((col : Int) + -1).toNat = c := by omega
        rw [h1, h2]; exact hval.symm⟩
    · exact ⟨(-1, 1), by simp, by
        rw [Option.ite_none_right_eq_some, Option.some_inj]
        refine ⟨by constructor <;> [omega; constructor <;> [omega; constructor <;> omega]], ?_⟩
        have h1 : ((row : Int) + -1).toNat = r := by omega
        have h2 : ((col : Int) + 1).toNat = c := by omega
        rw [h1, h2]; exact hval.symm⟩
    · exact ⟨(1, -1), by simp, by
        rw [Option.ite_none_right_eq_some, Option.some_inj]
        refine ⟨by constructor <;> [omega; constructor <;> [omega; constructor <;> omega]], ?_⟩
        have h1 : ((row : Int) + 1).toNat = r := by omega
        have h2 : ((col : Int) + -1).toNat = c := by omega
        rw [h1, h2]; exact hval.symm⟩
    · exact ⟨(1, 1), by simp, by
        rw [Option.ite_none_right_eq_some, Option.some_inj]
        refine ⟨by constructor <;> [omega; constructor <;> [omega; constructor <;> omega]], ?_⟩
        have h1 : ((row : Int) + 1).toNat = r := by omega
        have h2 : ((col : Int) + 1).toNat = c := by omega
        rw [h1, h2]; exact hval.symm⟩

theorem getAdjacents_nodup (g : Game) (row col : Nat) :
    (getAdjacents g row col).Nodup := by
  rw [getAdjacents]
  refine List.Nodup.filterMap ?_ (by decide)
  intro d d' i hi hi'
  simp only [Option.mem_def, Option.ite_none_right_eq_some, Option.some_inj] at hi hi'
  obtain ⟨⟨ha, hb, hc, hd2⟩, hv⟩ := hi
  obtain ⟨⟨ha', hb', hc', hd2'⟩, hv'⟩ := hi'
  have hcols : ((col : Int) + d.2).toNat < g.cols := by omega
  have hcols' : ((col : Int) + d'.2).toNat < g.cols := by omega
  have := cellIdx_inj g hcols hcols' (by rw [cellIdx, cellIdx, hv, hv'])
  have hfst : d.1 = d'.1 := by omega
  have hsnd : d.2 = d'.2 := by omega
  exact Prod.ext hfst hsnd

/-- Membership in `getAdjacents` coincides with the spec's diagonal-adjacency
relation for on-board targets. -/
theorem mem_getAdjacents_iff_diagTouch (g : Game) {p : Nat} (i : Nat)
    (hi : i < g.rows * g.cols) :
    i ∈ getAdjacents g (cellRow g p) (cellCol g p) ↔ DiagTouch g p i = true := by
  rw [mem_getAdjacents]
  unfold DiagTouch
  constructor
  · rintro ⟨r, c, hr, hc, hval, hrel, hcel⟩
    have h1 : cellRow g i = r := by rw [hval]; exact cellRow_cellIdx g r c hc
    have h2 : cellCol g i = c := by rw [hval]; exact cellCol_cellIdx g r c hc
    simp only [Bool.and_eq_true, Bool.or_eq_true, beq_iff_eq, h1, h2]
    omega
  · intro h
    simp only [Bool.and_eq_true, Bool.or_eq_true, beq_iff_eq] at h
    exact ⟨cellRow g i, cellCol g i, cellRow_lt g hi, cellCol_lt g hi,
      (cellIdx_decomp g i).symm, by omega, by omega⟩

/-! ### Candidate-list membership -/

theorem mem_candList (g : Game) (st : SState) (p : Nat × Nat) :
    p ∈ candList g st ↔ p.1 < g.rows ∧ p.2 < g.cols ∧ cellOk g st p.1 p.2 = true := by
  obtain ⟨row, col⟩ := p
  simp only [candList, List.mem_flatMap, List.mem_filterMap, List.mem_range,
    Option.ite_none_right_eq_some, Option.some_inj]
  constructor
  · rintro ⟨r, hr, c, hc, hok, heq⟩
    obtain ⟨h1, h2⟩ := Prod.mk.injEq .. ▸ heq
    subst h1; subst h2
    exact ⟨hr, hc, hok⟩
  · rintro ⟨hr, hc, hok⟩
    exact ⟨row, hr, col, hc, hok, rfl⟩

theorem mem_getCandidates (g : Game) (st : SState) (p : Nat × Nat) :
    p ∈ getCandidates g st ↔
      forwardCheckFailure g st = false ∧ p ∈ candList g st := by
  unfold getCandidates
  split
  · rename_i h
    simp [h]
  · rename_i h
    rw [List.mem_insertionSort]
    simp [Bool.not_eq_true] at h
    simp [h]

/-- The candidates produced by `getCandidates` pass the eligibility filter
and lie on the board. -/
theorem getCandidates_sound (g : Game) (st : SState) (p : Nat × Nat)
    (h : p ∈ getCandidates g st) :
    p.1 < g.rows ∧ p.2 < g.cols ∧ cellOk g st p.1 p.2 = true :=
  (mem_candList g st p).1 ((mem_getCandidates g st p).1 h).2

/-- So do the candidates of the forward-check-free generator. -/
theorem getCandidatesNoForwardCheck_sound (g : Game) (st : SState) (p : Nat × Nat)
    (h : p ∈ getCandidatesNoForwardCheck g st) :
    p.1 < g.rows ∧ p.2 < g.cols ∧ cellOk g st p.1 p.2 = true :=
  (mem_candList g st p).1 ((List.mem_insertionSort _).1 h)

/-! ### Components of the eligibility filter -/

theorem cellOk_elim (g : Game) (st : SState) {row col : Nat}
    (h : cellOk g st row col = true) :
    st.rowUsed row = false ∧ st.colUsed col = false ∧
    st.colorUsed (g.idxToColor (cellIdx g row col)) = false ∧
    st.adjacentToUsed (cellIdx g row col) = 0 := by
  simp only [cellOk, Bool.and_eq_true, Bool.not_eq_true', beq_iff_eq] at h
  exact ⟨h.1.1.1, h.1.1.2, h.1.2, h.2⟩

/-! ### Exact symmetry of place and unplace -/

theorem unplace_place (g : Game) (row col : Nat) (st : SState)
    (hr : st.rowUsed row = false) (hc : st.colUsed col = false)
    (hco : st.colorUsed (g.idxToColor (cellIdx g row col)) = false) :
    unplace g row col (place g row col st) = st := by
  unfold place unplace
  apply SState.ext
  · funext r
    by_cases h : r = row
    · subst h; simp [hr]
    · simp [h]
  · funext c
    by_cases h : c = col
    · subst h; simp [hc]
    · simp [h]
  · funext c
    by_cases h : c = g.idxToColor (cellIdx g row col)
    · subst h; simp [hco]
    · simp [h]
  · funext i
    simp
  · simp [List.dropLast_concat]

/-! ### Restoration on failure, extension on success -/

theorem tryCandidates_restore (g : Game) (recur : SState → Bool × SState)
    (hrec : ∀ st', (recur st').1 = false → (recur st').2 = st') :
    ∀ (l : List (Nat × Nat)) (st : SState), (∀ p ∈ l, cellOk g st p.1 p.2 = true) →
      (tryCandidates g recur l st).1 = false → (tryCandidates g recur l st).2 = st := by
  intro l
  induction l with
  | nil => intro st _ _; rfl
  | cons p rest ih =>
    intro st hok hfail
    have hp := cellOk_elim g st (hok p (List.mem_cons_self p rest))
    rcases hcall : recur (place g p.1 p.2 st) with ⟨b, st2⟩
    cases b with
    | true =>
      simp only [tryCandidates, hcall] at hfail
      exact Bool.noConfusion hfail
    | false =>
      have hst2 : st2 = place g p.1 p.2 st := by
        have h := hrec (place g p.1 p.2 st)
        rw [hcall] at h
        exact h rfl
      have hundo : unplace g p.1 p.2 st2 = st := by
        rw [hst2]; exact unplace_place g p.1 p.2 st hp.1 hp.2.1 hp.2.2.1
      simp only [tryCandidates, hcall] at hfail ⊢
      rw [hundo] at hfail ⊢
      exact ih st (fun q hq => hok q (List.mem_cons_of_mem p hq)) hfail

theorem solveBT_restore (cand : Game → SState → List (Nat × Nat)) (g : Game)
    (hsound : ∀ st p, p ∈ cand g st → cellOk g st p.1 p.2 = true) :
    ∀ (fuel : Nat) (st : SState), (solveBT cand g fuel st).1 = false →
      (solveBT cand g fuel st).2 = st := by
  intro fuel
  induction fuel with
  | zero => intro st _; rfl
  | succ n ih =>
    intro st hfail
    by_cases hs : solved g st = true
    · simp only [solveBT, if_pos hs] at hfail
      exact Bool.noConfusion hfail
    · simp only [solveBT, if_neg hs] at hfail ⊢
      exact tryCandidates_restore g _ ih (cand g st) st (fun p hp => hsound st p hp) hfail

theorem tryCandidates_extends (g : Game) (recur : SState → Bool × SState)
    (hrec : ∀ st', (recur st').1 = false → (recur st').2 = st')
    (hext : ∀ st', (recur st').1 = true →
      ∃ t, (recur st').2.solution = st'.solution ++ t) :
    ∀ (l : List (Nat × Nat)) (st : SState), (∀ p ∈ l, cellOk g st p.1 p.2 = true) →
      (tryCandidates g recur l st).1 = true →
      ∃ t, (tryCandidates g recur l st).2.solution = st.solution ++ t := by
  intro l
  induction l with
  | nil => intro st _ h; exact Bool.noConfusion h
  | cons p rest ih =>
    intro st hok hsucc
    have hp := cellOk_elim g st (hok p (List.mem_cons_self p rest))
    rcases hcall : recur (place g p.1 p.2 st) with ⟨b, st2⟩
    cases b with
    | true =>
      have h := hext (place g p.1 p.2 st)
      rw [hcall] at h
      obtain ⟨t, ht⟩ := h rfl
      simp only [tryCandidates, hcall]
      refine ⟨cellIdx g p.1 p.2 :: t, ?_⟩
      rw [ht]
      simp [place]
    | false =>
      have hst2 : st2 = place g p.1 p.2 st := by
        have h := hrec (place g p.1 p.2 st)
        rw [hcall] at h
        exact h rfl
      have hundo : unplace g p.1 p.2 st2 = st := by
        rw [hst2]; exact unplace_place g p.1 p.2 st hp.1 hp.2.1 hp.2.2.1
      simp only [tryCandidates, hcall] at hsucc ⊢
      rw [hundo] at hsucc ⊢
      exact ih st (fun q hq => hok q (List.mem_cons_of_mem p hq)) hsucc

theorem solveBT_extends (cand : Game → SState → List (Nat × Nat)) (g : Game)
    (hsound : ∀ st p, p ∈ cand g st → cellOk g st p.1 p.2 = true) :
    ∀ (fuel : Nat) (st : SState), (solveBT cand g fuel st).1 = true →
      ∃ t, (solveBT cand g fuel st).2.solution = st.solution ++ t := by
  intro fuel
  induction fuel with
  | zero => intro st h; exact Bool.noConfusion h
  | succ n ih =>
    intro st hsucc
    by_cases hs : solved g st = true
    · simp only [solveBT, if_pos hs]
      exact ⟨[], by simp⟩
    · simp only [solveBT, if_neg hs] at hsucc ⊢
      exact tryCandidates_extends g _ (solveBT_restore cand g hsound n) ih (cand g st) st
        (fun p hp => hsound st p hp) hsucc

/-! ### The state invariant -/

theorem initState_stateOf (g : Game) : initState = stateOf g [] := by
  apply SState.ext
  · funext r; simp [initState, stateOf]
  · funext c; simp [initState, stateOf]
  · funext c; simp [initState, stateOf]
  · funext i; simp [initState, stateOf]
  · rfl

theorem place_stateOf (g : Game) (sol : List Nat) (row col : Nat) (hc : col < g.cols) :
    place g row col (stateOf g sol) = stateOf g (sol ++ [cellIdx g row col]) := by
  have hrow : cellRow g (cellIdx g row col) = row := cellRow_cellIdx g row col hc
  have hcol : cellCol g (cellIdx g row col) = col := cellCol_cellIdx g row col hc
  apply SState.ext
  · funext r
    simp only [place, stateOf, List.any_append, List.any_cons, List.any_nil,
      Bool.or_false, hrow]
    by_cases h : r = row
    · subst h; simp
    · rw [if_neg h, beq_eq_false_iff_ne.2 (Ne.symm h), Bool.or_false]
  · funext c
    simp only [place, stateOf, List.any_append, List.any_cons, List.any_nil,
      Bool.or_false, hcol]
    by_cases h : c = col
    · subst h; simp
    · rw [if_neg h, beq_eq_false_iff_ne.2 (Ne.symm h), Bool.or_false]
  · funext c
    simp only [place, stateOf, List.any_append, List.any_cons, List.any_nil, Bool.or_false]
    by_cases h : c = g.idxToColor (cellIdx g row col)
    · subst h; simp
    · rw [if_neg h, beq_eq_false_iff_ne.2 (Ne.symm h), Bool.or_false]
  · funext i
    simp only [place, stateOf, List.map_append, List.map_cons, List.map_nil,
      List.sum_append, List.sum_cons, List.sum_nil, hrow, hcol]
    push_cast
    ring
  · rfl

/-- The "any"-shaped used flags of a determined state, read as statements
about the placement list. -/
theorem stateOf_rowUsed_eq_false (g : Game) (sol : List Nat) (row : Nat)
    (h : (stateOf g sol).rowUsed row = false) : ∀ idx ∈ sol, cellRow g idx ≠ row := by
  intro idx hidx
  simp only [stateOf, List.any_eq_false, beq_iff_eq] at h
  exact h idx hidx

theorem stateOf_colUsed_eq_false (g : Game) (sol : List Nat) (col : Nat)
    (h : (stateOf g sol).colUsed col = false) : ∀ idx ∈ sol, cellCol g idx ≠ col := by
  intro idx hidx
  simp only [stateOf, List.any_eq_false, beq_iff_eq] at h
  exact h idx hidx

theorem stateOf_colorUsed_eq_false (g : Game) (sol : List Nat) (color : Nat)
    (h : (stateOf g sol).colorUsed color = false) :
    ∀ idx ∈ sol, g.idxToColor idx ≠ color := by
  intro idx hidx
  simp only [stateOf, List.any_eq_false, beq_iff_eq] at h
  exact h idx hidx

/-- A zero adjacency counter in a determined state means the cell is not an
on-board diagonal neighbour of any placed cell. -/
theorem stateOf_adjacent_eq_zero (g : Game) (sol : List Nat) (i : Nat)
    (h : (stateOf g sol).adjacentToUsed i = 0) :
    ∀ idx ∈ sol, i ∉ getAdjacents g (cellRow g idx) (cellCol g idx) := by
  intro idx hidx
  simp only [stateOf] at h
  rw [Int.natCast_eq_zero, List.sum_eq_zero_iff] at h
  have hcount : (getAdjacents g (cellRow g idx) (cellCol g idx)).count i = 0 := by
    have := h _ (List.mem_map_of_mem _ hidx)
    exact this
  exact List.count_eq_zero.1 hcount

theorem partialValid_append (g : Game) (sol : List Nat) (row col : Nat)
    (hv : PartialValid g sol) (hr : row < g.rows) (hc : col < g.cols)
    (hok : cellOk g (stateOf g sol) row col = true) :
    PartialValid g (sol ++ [cellIdx g row col]) := by
  obtain ⟨hb, hnr, hnc, hncol, hpw⟩ := hv
  obtain ⟨hru, hcu, hcou, hadj⟩ := cellOk_elim g (stateOf g sol) hok
  have hrow : cellRow g (cellIdx g row col) = row := cellRow_cellIdx g row col hc
  have hcol : cellCol g (cellIdx g row col) = col := cellCol_cellIdx g row col hc
  have hfr := stateOf_rowUsed_eq_false g sol row hru
  have hfc := stateOf_colUsed_eq_false g sol col hcu
  have hfco := stateOf_colorUsed_eq_false g sol _ hcou
  have hfadj := stateOf_adjacent_eq_zero g sol _ hadj
  have hlt : cellIdx g row col < g.rows * g.cols := cellIdx_lt g hr hc
  have hnotouch : ∀ idx ∈ sol, DiagTouch g idx (cellIdx g row col) = false := by
    intro idx hidx
    have := hfadj idx hidx
    rw [mem_getAdjacents_iff_diagTouch g _ hlt] at this
    exact Bool.not_eq_true _ ▸ (Bool.eq_false_iff.2 (fun hcontra => this hcontra))
  refine ⟨?_, ?_, ?_, ?_, ?_⟩
  · intro idx hidx
    rcases List.mem_append.1 hidx with h | h
    · exact hb idx h
    · rw [List.mem_singleton.1 h, hrow, hcol]
      exact ⟨hr, hc⟩
  · rw [List.map_append, List.map_singleton, hrow]
    rw [List.nodup_append]
    exact ⟨hnr, List.nodup_singleton _, by
      intro a ha hmem
      rw [List.mem_singleton] at hmem
      obtain ⟨idx, hidx, hidx2⟩ := List.mem_map.1 ha
      exact hfr idx hidx (hidx2.trans hmem)⟩
  · rw [List.map_append, List.map_singleton, hcol]
    rw [List.nodup_append]
    exact ⟨hnc, List.nodup_singleton _, by
      intro a ha hmem
      rw [List.mem_singleton] at hmem
      obtain ⟨idx, hidx, hidx2⟩ := List.mem_map.1 ha
      exact hfc idx hidx (hidx2.trans hmem)⟩
  · rw [List.map_append, List.map_singleton]
    rw [List.nodup_append]
    exact ⟨hncol, List.nodup_singleton _, by
      intro a ha hmem
      rw [List.mem_singleton] at hmem
      obtain ⟨idx, hidx, hidx2⟩ := List.mem_map.1 ha
      exact hfco idx hidx (hidx2.trans hmem)⟩
  · rw [List.pairwise_append]
    refine ⟨hpw, List.pairwise_singleton _ _, ?_⟩
    intro a ha b hb2
    rw [List.mem_singleton.1 hb2]
    exact hnotouch a ha

theorem inv_initState (g : Game) : Inv g initState := by
  constructor
  · exact initState_stateOf g
  · exact ⟨fun idx h => absurd h (List.not_mem_nil idx), List.nodup_nil, List.nodup_nil,
      List.nodup_nil, List.Pairwise.nil⟩

theorem inv_place (g : Game) (st : SState) (row col : Nat)
    (hinv : Inv g st) (hr : row < g.rows) (hc : col < g.cols)
    (hok : cellOk g st row col = true) :
    Inv g (place g row col st) := by
  obtain ⟨hst, hv⟩ := hinv
  have hok2 : cellOk g (stateOf g st.solution) row col = true := by rw [← hst]; exact hok
  constructor
  · conv_lhs => rw [hst]
    rw [place_stateOf g st.solution row col hc]
    rfl
  · have : (place g row col st).solution = st.solution ++ [cellIdx g row col] := rfl
    rw [this]
    exact partialValid_append g st.solution row col hv hr hc hok2

/-- Success of the search preserves the invariant and ends in a `solved`
state, for any candidate generator producing only eligible on-board cells. -/
theorem solveBT_success_inv (cand : Game → SState → List (Nat × Nat)) (g : Game)
    (hsound : ∀ st p, p ∈ cand g st →
      p.1 < g.rows ∧ p.2 < g.cols ∧ cellOk g st p.1 p.2 = true) :
    ∀ (fuel : Nat) (st : SState), Inv g st → (solveBT cand g fuel st).1 = true →
      Inv g (solveBT cand g fuel st).2 ∧ solved g (solveBT cand g fuel st).2 = true := by
  intro fuel
  induction fuel with
  | zero => intro st _ h; exact Bool.noConfusion h
  | succ n ih =>
    intro st hinv hsucc
    by_cases hs : solved g st = true
    · simp only [solveBT, if_pos hs]
      exact ⟨hinv, hs⟩
    · simp only [solveBT, if_neg hs] at hsucc ⊢
      have hmain : ∀ l : List (Nat × Nat),
          (∀ p ∈ l, p.1 < g.rows ∧ p.2 < g.cols ∧ cellOk g st p.1 p.2 = true) →
          (tryCandidates g (solveBT cand g n) l st).1 = true →
          Inv g (tryCandidates g (solveBT cand g n) l st).2 ∧
            solved g (tryCandidates g (solveBT cand g n) l st).2 = true := by
        intro l
        induction l with
        | nil => intro _ h; exact Bool.noConfusion h
        | cons p rest ihl =>
          intro hok hsucc2
          have hp := hok p (List.mem_cons_self p rest)
          rcases hcall : solveBT cand g n (place g p.1 p.2 st) with ⟨b, st2⟩
          cases b with
          | true =>
            have hinv2 := inv_place g st p.1 p.2 hinv hp.1 hp.2.1 hp.2.2
            have h2 := ih (place g p.1 p.2 st) hinv2 (by rw [hcall])
            rw [hcall] at h2
            simp only [tryCandidates, hcall]
            exact h2
          | false =>
            have hst2 : st2 = place g p.1 p.2 st := by
              have h := solveBT_restore cand g
                (fun st' q hq => (hsound st' q hq).2.2) n (place g p.1 p.2 st)
              rw [hcall] at h
              exact h rfl
            have hpel := cellOk_elim g st hp.2.2
            have hundo : unplace g p.1 p.2 st2 = st := by
              rw [hst2]
              exact unplace_place g p.1 p.2 st hpel.1 hpel.2.1 hpel.2.2.1
            simp only [tryCandidates, hcall] at hsucc2 ⊢
            rw [hundo] at hsucc2 ⊢
            exact ihl (fun q hq => hok q (List.mem_cons_of_mem p hq)) hsucc2
      exact hmain (cand g st) (fun p hp => hsound st p hp) hsucc

/-! ### From a solved invariant state to a valid placement -/

theorem DiagTouch_irrefl (g : Game) (i : Nat) : DiagTouch g i i = false := by
  simp only [DiagTouch, Bool.and_eq_false_iff, Bool.or_eq_false_iff, beq_eq_false_iff_ne]
  left
  omega

theorem DiagTouch_symm (g : Game) (i j : Nat) : DiagTouch g i j = DiagTouch g j i := by
  unfold DiagTouch
  rw [Bool.or_comm (cellRow g i == cellRow g j + 1), Bool.or_comm (cellCol g i == cellCol g j + 1)]

theorem solved_elim (g : Game) (st : SState) (h : solved g st = true) :
    (∀ r, r < g.rows → st.rowUsed r = true) ∧
    (∀ c, c < g.cols → st.colUsed c = true) ∧
    (∀ c ∈ g.colors, st.colorUsed c = true) := by
  simp only [solved, Bool.and_eq_true, List.all_eq_true, List.mem_range] at h
  exact ⟨h.1.1, h.1.2, h.2⟩

theorem stateOf_rowUsed_eq_true (g : Game) (sol : List Nat) (row : Nat)
    (h : (stateOf g sol).rowUsed row = true) : ∃ idx ∈ sol, cellRow g idx = row := by
  simpa only [stateOf, List.any_eq_true, beq_iff_eq] using h

theorem stateOf_colUsed_eq_true (g : Game) (sol : List Nat) (col : Nat)
    (h : (stateOf g sol).colUsed col = true) : ∃ idx ∈ sol, cellCol g idx = col := by
  simpa only [stateOf, List.any_eq_true, beq_iff_eq] using h

theorem stateOf_colorUsed_eq_true (g : Game) (sol : List Nat) (color : Nat)
    (h : (stateOf g sol).colorUsed color = true) : ∃ idx ∈ sol, g.idxToColor idx = color := by
  simpa only [stateOf, List.any_eq_true, beq_iff_eq] using h

/-- Each placed cell of a well-formed partial placement lies on the board. -/
theorem partialValid_mem_lt (g : Game) {sol : List Nat} (hv : PartialValid g sol)
    {idx : Nat} (h : idx ∈ sol) : idx < g.rows * g.cols := by
  obtain ⟨hr, hc⟩ := hv.1 idx h
  have := cellIdx_lt g hr hc
  rwa [cellIdx_decomp g idx] at this

/-- A solved invariant state has placed exactly `rows` cells. -/
theorem length_eq_rows_of_solved (g : Game) (st : SState) (hinv : Inv g st)
    (hsol : solved g st = true) : st.solution.length = g.rows := by
  obtain ⟨hst, hv⟩ := hinv
  have hnr : (st.solution.map (cellRow g)).Nodup := hv.2.1
  have hcov := (solved_elim g st hsol).1
  have hfin : (st.solution.map (cellRow g)).toFinset = Finset.range g.rows := by
    apply Finset.ext
    intro a
    rw [List.mem_toFinset, Finset.mem_range, List.mem_map]
    constructor
    · rintro ⟨idx, hidx, rfl⟩
      exact (hv.1 idx hidx).1
    · intro ha
      have h1 : st.rowUsed a = true := hcov a ha
      rw [hst] at h1
      obtain ⟨idx, hidx, h2⟩ := stateOf_rowUsed_eq_true g st.solution a h1
      exact ⟨idx, hidx, h2⟩
  calc st.solution.length = (st.solution.map (cellRow g)).length :=
        (List.length_map _ _).symm
    _ = (st.solution.map (cellRow g)).toFinset.card :=
        (List.toFinset_card_of_nodup hnr).symm
    _ = (Finset.range g.rows).card := by rw [hfin]
    _ = g.rows := Finset.card_range _

/-- The placement list of a well-formed partial placement has no duplicate
cells. -/
theorem partialValid_nodup (g : Game) {sol : List Nat} (hv : PartialValid g sol) :
    sol.Nodup :=
  List.Nodup.of_map (cellRow g) hv.2.1

/-- A solved invariant state carries a valid full placement. -/
theorem validPlacement_of_solved (g : Game) (st : SState) (hinv : Inv g st)
    (hsol : solved g st = true) : ValidPlacement g st.solution.toFinset := by
  obtain ⟨hst, hv⟩ := hinv
  obtain ⟨hcr, hcc, hcco⟩ := solved_elim g st hsol
  refine ⟨?_, ?_, ?_, ?_, ?_, ?_, ?_, ?_⟩
  · intro i hi
    exact partialValid_mem_lt g hv (List.mem_toFinset.1 hi)
  · intro r hr
    have h1 : st.rowUsed r = true := hcr r hr
    rw [hst] at h1
    obtain ⟨idx, hidx, h2⟩ := stateOf_rowUsed_eq_true g st.solution r h1
    exact ⟨idx, List.mem_toFinset.2 hidx, h2⟩
  · intro i hi j hj hij
    exact List.inj_on_of_nodup_map hv.2.1 (List.mem_toFinset.1 hi)
      (List.mem_toFinset.1 hj) hij
  · intro c hc
    have h1 : st.colUsed c = true := hcc c hc
    rw [hst] at h1
    obtain ⟨idx, hidx, h2⟩ := stateOf_colUsed_eq_true g st.solution c h1
    exact ⟨idx, List.mem_toFinset.2 hidx, h2⟩
  · intro i hi j hj hij
    exact List.inj_on_of_nodup_map hv.2.2.1 (List.mem_toFinset.1 hi)
      (List.mem_toFinset.1 hj) hij
  · intro c hc
    have h1 : st.colorUsed c = true := hcco c hc
    rw [hst] at h1
    obtain ⟨idx, hidx, h2⟩ := stateOf_colorUsed_eq_true g st.solution c h1
    exact ⟨idx, List.mem_toFinset.2 hidx, h2⟩
  · intro i hi j hj hij
    exact List.inj_on_of_nodup_map hv.2.2.2.1 (List.mem_toFinset.1 hi)
      (List.mem_toFinset.1 hj) hij
  · intro i hi j hj
    by_cases hij : i = j
    · subst hij; exact DiagTouch_irrefl g i
    · exact List.Pairwise.forall (fun a b hab => (DiagTouch_symm g b a).trans hab)
        hv.2.2.2.2 (List.mem_toFinset.1 hi) (List.mem_toFinset.1 hj) hij

/-! ### Completeness: a valid placement extending the current state is found -/

theorem partialValid_length_le (g : Game) {sol : List Nat} (hv : PartialValid g sol) :
    sol.length ≤ g.rows := by
  have hsub : (sol.map (cellRow g)).toFinset ⊆ Finset.range g.rows := by
    intro a ha
    rw [List.mem_toFinset, List.mem_map] at ha
    obtain ⟨idx, hidx, rfl⟩ := ha
    exact Finset.mem_range.2 (hv.1 idx hidx).1
  calc sol.length = (sol.map (cellRow g)).length := (List.length_map _ _).symm
    _ = (sol.map (cellRow g)).toFinset.card := (List.toFinset_card_of_nodup hv.2.1).symm
    _ ≤ (Finset.range g.rows).card := Finset.card_le_card hsub
    _ = g.rows := Finset.card_range _

theorem solved_intro (g : Game) (st : SState) (hst : st = stateOf g st.solution)
    (hrows : ∀ r, r < g.rows → ∃ idx ∈ st.solution, cellRow g idx = r)
    (hcols : ∀ c, c < g.cols → ∃ idx ∈ st.solution, cellCol g idx = c)
    (hcolors : ∀ c ∈ g.colors, ∃ idx ∈ st.solution, g.idxToColor idx = c) :
    solved g st = true := by
  simp only [solved, Bool.and_eq_true, List.all_eq_true, List.mem_range]
  refine ⟨⟨?_, ?_⟩, ?_⟩
  · intro r hr
    obtain ⟨idx, hidx, heq⟩ := hrows r hr
    rw [hst]
    exact List.any_eq_true.2 ⟨idx, hidx, beq_iff_eq.2 heq⟩
  · intro c hc
    obtain ⟨idx, hidx, heq⟩ := hcols c hc
    rw [hst]
    exact List.any_eq_true.2 ⟨idx, hidx, beq_iff_eq.2 heq⟩
  · intro c hc
    obtain ⟨idx, hidx, heq⟩ := hcolors c hc
    rw [hst]
    exact List.any_eq_true.2 ⟨idx, hidx, beq_iff_eq.2 heq⟩

/-- A cell of a valid placement that is not yet placed passes the whole
eligibility filter in the current invariant state. -/
theorem cellOk_of_validPlacement (g : Game) (st : SState) (S : Finset Nat)
    (hinv : Inv g st) (hS : ValidPlacement g S)
    (hsub : ∀ idx ∈ st.solution, idx ∈ S) {x : Nat} (hx : x ∈ S)
    (hnx : x ∉ st.solution) :
    cellRow g x < g.rows ∧ cellCol g x < g.cols ∧
      cellOk g st (cellRow g x) (cellCol g x) = true := by
  obtain ⟨hst, hv⟩ := hinv
  obtain ⟨hb, hrcov, hrinj, hccov, hcinj, hcocov, hcoinj, hnd⟩ := hS
  have hxlt : x < g.rows * g.cols := hb x hx
  have hdec : cellIdx g (cellRow g x) (cellCol g x) = x := cellIdx_decomp g x
  refine ⟨cellRow_lt g hxlt, cellCol_lt g hxlt, ?_⟩
  have h1 : st.rowUsed (cellRow g x) = false := by
    rw [hst]
    refine List.any_eq_false.2 ?_
    intro idx hidx
    rw [beq_iff_eq]
    intro heq
    exact hnx (hrinj idx (hsub idx hidx) x hx heq ▸ hidx)
  have h2 : st.colUsed (cellCol g x) = false := by
    rw [hst]
    refine List.any_eq_false.2 ?_
    intro idx hidx
    rw [beq_iff_eq]
    intro heq
    exact hnx (hcinj idx (hsub idx hidx) x hx heq ▸ hidx)
  have h3 : st.colorUsed (g.idxToColor x) = false := by
    rw [hst]
    refine List.any_eq_false.2 ?_
    intro idx hidx
    rw [beq_iff_eq]
    intro heq
    exact hnx (hcoinj idx (hsub idx hidx) x hx heq ▸ hidx)
  have h4 : st.adjacentToUsed x = 0 := by
    rw [hst]
    show ((_ : Nat) : Int) = 0
    rw [Int.natCast_eq_zero, List.sum_eq_zero_iff]
    intro n hn
    rw [List.mem_map] at hn
    obtain ⟨idx, hidx, rfl⟩ := hn
    rw [List.count_eq_zero]
    intro hmem
    rw [mem_getAdjacents_iff_diagTouch g _ hxlt] at hmem
    have := hnd idx (hsub idx hidx) x hx
    rw [hmem] at this
    exact Bool.noConfusion this
  simp only [cellOk, hdec, h1, h2, h3, h4, Bool.not_false, Bool.and_self, Bool.true_and]
  rfl

/-- If a valid placement extends the current partial solution, the forward
check cannot fire. -/
theorem forwardCheck_false_of_validPlacement (g : Game) (st : SState) (S : Finset Nat)
    (hinv : Inv g st) (hS : ValidPlacement g S)
    (hsub : ∀ idx ∈ st.solution, idx ∈ S) :
    forwardCheckFailure g st = false := by
  have hst := hinv.1
  obtain ⟨hb, hrcov, hrinj, hccov, hcinj, hcocov, hcoinj, hnd⟩ := hS
  simp only [forwardCheckFailure, Bool.or_eq_false_iff]
  refine ⟨⟨?_, ?_⟩, ?_⟩
  · refine List.any_eq_false.2 ?_
    intro row hrow
    rw [List.mem_range] at hrow
    rw [Bool.not_eq_true, Bool.and_eq_false_iff]
    by_cases hused : st.rowUsed row = true
    · exact Or.inl (by rw [Bool.not_eq_false']; exact hused)
    · right
      rw [beq_eq_false_iff_ne]
      rw [Bool.not_eq_true] at hused
      obtain ⟨y, hyS, hy⟩ := hrcov row hrow
      have hyn : y ∉ st.solution := by
        intro hyin
        rw [hst] at hused
        have := List.any_eq_false.1 hused y hyin
        rw [beq_iff_eq] at this
        exact this hy
      obtain ⟨hr1, hc1, hok⟩ := cellOk_of_validPlacement g st S ⟨hst, hinv.2⟩
        ⟨hb, hrcov, hrinj, hccov, hcinj, hcocov, hcoinj, hnd⟩ hsub hyS hyn
      intro h0
      rw [rowToSpots, List.countP_eq_length_filter] at h0
      have hmem : (cellRow g y, cellCol g y) ∈
          (candList g st).filter fun p => p.1 == row := by
        rw [List.mem_filter]
        exact ⟨(mem_candList g st _).2 ⟨hr1, hc1, hok⟩, beq_iff_eq.2 hy⟩
      rw [List.eq_nil_of_length_eq_zero h0] at hmem
      exact absurd hmem (List.not_mem_nil _)
  · refine List.any_eq_false.2 ?_
    intro col hcol
    rw [List.mem_range] at hcol
    rw [Bool.not_eq_true, Bool.and_eq_false_iff]
    by_cases hused : st.colUsed col = true
    · exact Or.inl (by rw [Bool.not_eq_false']; exact hused)
    · right
      rw [beq_eq_false_iff_ne]
      rw [Bool.not_eq_true] at hused
      obtain ⟨y, hyS, hy⟩ := hccov col hcol
      have hyn : y ∉ st.solution := by
        intro hyin
        rw [hst] at hused
        have := List.any_eq_false.1 hused y hyin
        rw [beq_iff_eq] at this
        exact this hy
      obtain ⟨hr1, hc1, hok⟩ := cellOk_of_validPlacement g st S ⟨hst, hinv.2⟩
        ⟨hb, hrcov, hrinj, hccov, hcinj, hcocov, hcoinj, hnd⟩ hsub hyS hyn
      intro h0
      rw [colToSpots, List.countP_eq_length_filter] at h0
      have hmem : (cellRow g y, cellCol g y) ∈
          (candList g st).filter fun p => p.2 == col := by
        rw [List.mem_filter]
        exact ⟨(mem_candList g st _).2 ⟨hr1, hc1, hok⟩, beq_iff_eq.2 hy⟩
      rw [List.eq_nil_of_length_eq_zero h0] at hmem
      exact absurd hmem (List.not_mem_nil _)
  · refine List.any_eq_false.2 ?_
    intro color hcolor
    rw [Bool.not_eq_true, Bool.and_eq_false_iff]
    by_cases hused : st.colorUsed color = true
    · exact Or.inl (by rw [Bool.not_eq_false']; exact hused)
    · right
      rw [beq_eq_false_iff_ne]
      rw [Bool.not_eq_true] at hused
      obtain ⟨y, hyS, hy⟩ := hcocov color hcolor
      have hyn : y ∉ st.solution := by
        intro hyin
        rw [hst] at hused
        have := List.any_eq_false.1 hused y hyin
        rw [beq_iff_eq] at this
        exact this hy
      obtain ⟨hr1, hc1, hok⟩ := cellOk_of_validPlacement g st S ⟨hst, hinv.2⟩
        ⟨hb, hrcov, hrinj, hccov, hcinj, hcocov, hcoinj, hnd⟩ hsub hyS hyn
      intro h0
      rw [colorToSpots, List.countP_eq_length_filter] at h0
      have hmem : (cellRow g y, cellCol g y) ∈
          (candList g st).filter fun p => g.idxToColor (cellIdx g p.1 p.2) == color := by
        rw [List.mem_filter]
        refine ⟨(mem_candList g st _).2 ⟨hr1, hc1, hok⟩, ?_⟩
        rw [beq_iff_eq]
        show g.idxToColor (cellIdx g (cellRow g y) (cellCol g y)) = color
        rw [cellIdx_decomp g y]
        exact hy
      rw [List.eq_nil_of_length_eq_zero h0] at hmem
      exact absurd hmem (List.not_mem_nil _)

theorem tryCandidates_success_of_mem (g : Game) (recur : SState → Bool × SState)
    (hrec : ∀ st', (recur st').1 = false → (recur st').2 = st') :
    ∀ (l : List (Nat × Nat)) (st : SState),
      (∀ p ∈ l, cellOk g st p.1 p.2 = true) →
      ∀ p ∈ l, (recur (place g p.1 p.2 st)).1 = true →
      (tryCandidates g recur l st).1 = true := by
  intro l
  induction l with
  | nil => intro st _ p hp; exact absurd hp (List.not_mem_nil p)
  | cons q rest ih =>
    intro st hok p hp hpsucc
    have hq := cellOk_elim g st (hok q (List.mem_cons_self q rest))
    rcases hcall : recur (place g q.1 q.2 st) with ⟨b, st2⟩
    cases b with
    | true => simp only [tryCandidates, hcall]
    | false =>
      have hst2 : st2 = place g q.1 q.2 st := by
        have h := hrec (place g q.1 q.2 st)
        rw [hcall] at h
        exact h rfl
      have hundo : unplace g q.1 q.2 st2 = st := by
        rw [hst2]
        exact unplace_place g q.1 q.2 st hq.1 hq.2.1 hq.2.2.1
      rcases List.mem_cons.1 hp with rfl | hmem
      · rw [hcall] at hpsucc
        exact Bool.noConfusion hpsucc
      · simp only [tryCandidates, hcall]
        rw [hundo]
        exact ih st (fun r hr => hok r (List.mem_cons_of_mem q hr)) p hmem hpsucc

/-- Completeness of the search for any candidate generator that is sound and
keeps every unplaced cell of any valid placement extending the state. -/
theorem solveBT_complete (cand : Game → SState → List (Nat × Nat)) (g : Game)
    (hsound : ∀ st p, p ∈ cand g st →
      p.1 < g.rows ∧ p.2 < g.cols ∧ cellOk g st p.1 p.2 = true)
    (hcomp : ∀ st S, Inv g st → ValidPlacement g S →
      (∀ idx ∈ st.solution, idx ∈ S) → solved g st = false →
      ∀ x ∈ S, x ∉ st.solution → (cellRow g x, cellCol g x) ∈ cand g st) :
    ∀ (fuel : Nat) (st : SState) (S : Finset Nat), Inv g st → ValidPlacement g S →
      (∀ idx ∈ st.solution, idx ∈ S) → g.rows < fuel + st.solution.length →
      (solveBT cand g fuel st).1 = true := by
  intro fuel
  induction fuel with
  | zero =>
    intro st S hinv _ _ hbound
    exact absurd hbound (Nat.not_lt.2 (by simpa using partialValid_length_le g hinv.2))
  | succ n ih =>
    intro st S hinv hS hsub hbound
    by_cases hs : solved g st = true
    · simp only [solveBT, if_pos hs]
    · have hx : ∃ x ∈ S, x ∉ st.solution := by
        by_contra hno
        push_neg at hno
        apply hs
        apply solved_intro g st hinv.1
        · intro r hr
          obtain ⟨y, hyS, hy⟩ := hS.2.1 r hr
          exact ⟨y, hno y hyS, hy⟩
        · intro c hc
          obtain ⟨y, hyS, hy⟩ := hS.2.2.2.1 c hc
          exact ⟨y, hno y hyS, hy⟩
        · intro c hc
          obtain ⟨y, hyS, hy⟩ := hS.2.2.2.2.2.1 c hc
          exact ⟨y, hno y hyS, hy⟩
      obtain ⟨x, hxS, hxn⟩ := hx
      obtain ⟨hr1, hc1, hok⟩ := cellOk_of_validPlacement g st S hinv hS hsub hxS hxn
      have hmem : (cellRow g x, cellCol g x) ∈ cand g st :=
        hcomp st S hinv hS hsub (Bool.not_eq_true _ ▸ hs) x hxS hxn
      have hrecsucc :
          (solveBT cand g n (place g (cellRow g x) (cellCol g x) st)).1 = true := by
        apply ih (place g (cellRow g x) (cellCol g x) st) S
          (inv_place g st _ _ hinv hr1 hc1 hok) hS
        · intro idx hidx
          have : (place g (cellRow g x) (cellCol g x) st).solution =
              st.solution ++ [cellIdx g (cellRow g x) (cellCol g x)] := rfl
          rw [this, List.mem_append] at hidx
          rcases hidx with h | h
          · exact hsub idx h
          · rw [List.mem_singleton.1 h, cellIdx_decomp g x]
            exact hxS
        · have : (place g (cellRow g x) (cellCol g x) st).solution.length =
              st.solution.length + 1 := by
            show (st.solution ++ [_]).length = _
            simp
          omega
      simp only [solveBT, if_neg hs]
      exact tryCandidates_success_of_mem g (solveBT cand g n)
        (solveBT_restore cand g (fun st' q hq => (hsound st' q hq).2.2) n)
        (cand g st) st (fun q hq => (hsound st q hq).2.2)
        (cellRow g x, cellCol g x) hmem hrecsucc

/-- The source's candidate generator keeps every unplaced cell of a valid
placement extending the current state: the forward check cannot fire then. -/
theorem getCandidates_complete (g : Game) : ∀ (st : SState) (S : Finset Nat),
    Inv g st → ValidPlacement g S → (∀ idx ∈ st.solution, idx ∈ S) →
    solved g st = false → ∀ x ∈ S, x ∉ st.solution →
    (cellRow g x, cellCol g x) ∈ getCandidates g st := by
  intro st S hinv hS hsub _ x hx hnx
  obtain ⟨hr, hc, hok⟩ := cellOk_of_validPlacement g st S hinv hS hsub hx hnx
  rw [mem_getCandidates]
  exact ⟨forwardCheck_false_of_validPlacement g st S hinv hS hsub,
    (mem_candList g st _).2 ⟨hr, hc, hok⟩⟩

/-- So does the forward-check-free generator, trivially. -/
theorem getCandidatesNoForwardCheck_complete (g : Game) :
    ∀ (st : SState) (S : Finset Nat),
    Inv g st → ValidPlacement g S → (∀ idx ∈ st.solution, idx ∈ S) →
    solved g st = false → ∀ x ∈ S, x ∉ st.solution →
    (cellRow g x, cellCol g x) ∈ getCandidatesNoForwardCheck g st := by
  intro st S hinv hS hsub _ x hx hnx
  obtain ⟨hr, hc, hok⟩ := cellOk_of_validPlacement g st S hinv hS hsub hx hnx
  rw [getCandidatesNoForwardCheck, List.mem_insertionSort]
  exact (mem_candList g st _).2 ⟨hr, hc, hok⟩

/-! ### Fuel sufficiency: the recursion depth is bounded by the free rows -/

/-- The number of rows not yet holding a marker. -/
def freeRows (g : Game) (st : SState) : Nat :=
  (List.range g.rows).countP fun r => !st.rowUsed r

theorem countP_update (l : List Nat) (hl : l.Nodup) (r0 : Nat) (h : r0 ∈ l)
    (p p' : Nat → Bool) (hagree : ∀ a ∈ l, a ≠ r0 → p' a = p a)
    (hp : p r0 = true) (hp' : p' r0 = false) :
    l.countP p' + 1 = l.countP p := by
  induction l with
  | nil => exact absurd h (List.not_mem_nil r0)
  | cons a rest ih =>
    rw [List.countP_cons, List.countP_cons]
    by_cases hcase : a = r0
    · subst hcase
      have hrest : rest.countP p' = rest.countP p := by
        apply List.countP_congr
        intro b hb
        have hba : b ≠ a := fun heq => (List.nodup_cons.1 hl).1 (heq ▸ hb)
        rw [hagree b (List.mem_cons_of_mem a hb) hba]
      rw [hrest, hp, hp']
      simp
    · have hmem : r0 ∈ rest := by
        rcases List.mem_cons.1 h with heq | hmem
        · exact absurd heq.symm hcase
        · exact hmem
      have hpa := hagree a (List.mem_cons_self a rest) hcase
      have hih := ih (List.nodup_cons.1 hl).2 hmem
        (fun b hb hbr => hagree b (List.mem_cons_of_mem a hb) hbr)
      rw [hpa]
      cases hpb : p a <;> simp <;> omega

theorem freeRows_place (g : Game) (st : SState) (row col : Nat)
    (hr : row < g.rows) (hfalse : st.rowUsed row = false) :
    freeRows g (place g row col st) + 1 = freeRows g st := by
  unfold freeRows
  apply countP_update (List.range g.rows) (List.nodup_range g.rows) row
    (List.mem_range.2 hr)
  · intro a _ ha
    show (!(place g row col st).rowUsed a) = !st.rowUsed a
    simp only [place, if_neg ha]
  · rw [hfalse]; rfl
  · show (!(place g row col st).rowUsed row) = false
    simp [place]

/-- The result of the search is independent of the fuel as soon as the fuel
exceeds the number of free rows: each placement consumes a free row, so the
recursion bottoms out before the fuel does. -/
theorem solveBT_fuel_irrelevant (cand : Game → SState → List (Nat × Nat)) (g : Game)
    (hsound : ∀ st p, p ∈ cand g st →
      p.1 < g.rows ∧ p.2 < g.cols ∧ cellOk g st p.1 p.2 = true) :
    ∀ (f1 f2 : Nat) (st : SState), freeRows g st < f1 → freeRows g st < f2 →
      solveBT cand g f1 st = solveBT cand g f2 st := by
  intro f1
  induction f1 with
  | zero => intro f2 st h1 _; exact absurd h1 (Nat.not_lt_zero _)
  | succ n ih =>
    intro f2 st h1 h2
    cases f2 with
    | zero => exact absurd h2 (Nat.not_lt_zero _)
    | succ m =>
      simp only [solveBT]
      by_cases hs : solved g st = true
      · rw [if_pos hs, if_pos hs]
      · rw [if_neg hs, if_neg hs]
        have hmain : ∀ l : List (Nat × Nat),
            (∀ p ∈ l, p.1 < g.rows ∧ cellOk g st p.1 p.2 = true) →
            tryCandidates g (solveBT cand g n) l st =
              tryCandidates g (solveBT cand g m) l st := by
          intro l
          induction l with
          | nil => intro _; rfl
          | cons p rest ihl =>
            intro hok
            have hp := hok p (List.mem_cons_self p rest)
            have hpel := cellOk_elim g st hp.2
            have hfr : freeRows g (place g p.1 p.2 st) + 1 = freeRows g st :=
              freeRows_place g st p.1 p.2 hp.1 hpel.1
            have heq : solveBT cand g n (place g p.1 p.2 st) =
                solveBT cand g m (place g p.1 p.2 st) :=
              ih m (place g p.1 p.2 st) (by omega) (by omega)
            rcases hcall : solveBT cand g n (place g p.1 p.2 st) with ⟨b, st2⟩
            have hcall2 : solveBT cand g m (place g p.1 p.2 st) = (b, st2) := by
              rw [← heq]; exact hcall
            cases b with
            | true => simp only [tryCandidates, hcall, hcall2]
            | false =>
              have hst2 : st2 = place g p.1 p.2 st := by
                have h := solveBT_restore cand g
                  (fun st' q hq => (hsound st' q hq).2.2) n (place g p.1 p.2 st)
                rw [hcall] at h
                exact h rfl
              have hundo : unplace g p.1 p.2 st2 = st := by
                rw [hst2]
                exact unplace_place g p.1 p.2 st hpel.1 hpel.2.1 hpel.2.2.1
              simp only [tryCandidates, hcall, hcall2]
              rw [hundo]
              exact ihl (fun q hq => hok q (List.mem_cons_of_mem p hq))
        exact hmain (cand g st)
          (fun p hp => ⟨(hsound st p hp).1, (hsound st p hp).2.2⟩)

theorem freeRows_initState (g : Game) : freeRows g initState = g.rows := by
  unfold freeRows initState
  simp [List.length_range]

/-! ### The adjacency counters count diagonally adjacent placed markers -/

theorem getAdjacents_count_eq (g : Game) (idx i : Nat) (hi : i < g.rows * g.cols) :
    (getAdjacents g (cellRow g idx) (cellCol g idx)).count i =
      if DiagTouch g idx i = true then 1 else 0 := by
  by_cases h : DiagTouch g idx i = true
  · rw [if_pos h]
    exact List.count_eq_one_of_mem (getAdjacents_nodup g _ _)
      ((mem_getAdjacents_iff_diagTouch g i hi).2 h)
  · rw [if_neg h]
    exact List.count_eq_zero.2
      fun hmem => h ((mem_getAdjacents_iff_diagTouch g i hi).1 hmem)

theorem sum_map_ite_eq_countP (l : List Nat) (f : Nat → Nat) (q : Nat → Bool)
    (h : ∀ x ∈ l, f x = if q x = true then 1 else 0) :
    (l.map f).sum = l.countP q := by
  induction l with
  | nil => rfl
  | cons a rest ih =>
    rw [List.map_cons, List.sum_cons, List.countP_cons,
      h a (List.mem_cons_self a rest),
      ih (fun x hx => h x (List.mem_cons_of_mem a hx))]
    cases q a <;> simp <;> omega

/-- In a determined state, each on-board adjacency counter equals the number
of placed markers diagonally adjacent to its cell. -/
theorem stateOf_adjacent_eq_diagPressure (g : Game) (sol : List Nat) (i : Nat)
    (hi : i < g.rows * g.cols) :
    (stateOf g sol).adjacentToUsed i = (diagPressure g sol i : Int) := by
  show ((_ : Nat) : Int) = _
  rw [Int.natCast_inj]
  exact sum_map_ite_eq_countP sol _ _ (fun idx _ => getAdjacents_count_eq g idx i hi)

/-- The state returned by the search satisfies the invariant whenever the
entry state does, on both the success and failure paths. -/
theorem solveBT_result_inv (cand : Game → SState → List (Nat × Nat)) (g : Game)
    (hsound : ∀ st p, p ∈ cand g st →
      p.1 < g.rows ∧ p.2 < g.cols ∧ cellOk g st p.1 p.2 = true)
    (fuel : Nat) (st : SState) (hinv : Inv g st) :
    Inv g (solveBT cand g fuel st).2 := by
  cases hres : (solveBT cand g fuel st).1 with
  | false =>
    rw [solveBT_restore cand g (fun st' q hq => (hsound st' q hq).2.2) fuel st hres]
    exact hinv
  | true => exact (solveBT_success_inv cand g hsound fuel st hinv hres).1

/-! ### Small helpers for the claim statements -/

theorem cellOk_intro (g : Game) (st : SState) (row col : Nat)
    (h1 : st.rowUsed row = false) (h2 : st.colUsed col = false)
    (h3 : st.colorUsed (g.idxToColor (cellIdx g row col)) = false)
    (h4 : st.adjacentToUsed (cellIdx g row col) = 0) : cellOk g st row col = true := by
  simp [cellOk, h1, h2, h3, h4]

theorem list_covers_of_nodup_card (l : List Nat) (T : Finset Nat) (hn : l.Nodup)
    (hsub : ∀ a ∈ l, a ∈ T) (hlen : T.card ≤ l.length) : ∀ t ∈ T, t ∈ l := by
  have hsub2 : l.toFinset ⊆ T := fun a ha => hsub a (List.mem_toFinset.1 ha)
  have hcard : T.card ≤ l.toFinset.card := by
    rw [List.toFinset_card_of_nodup hn]; exact hlen
  have heq := Finset.eq_of_subset_of_card_le hsub2 hcard
  intro t ht
  rw [← heq] at ht
  exact List.mem_toFinset.1 ht

instance (g : Game) : Decidable g.WF := by
  unfold Game.WF; infer_instance

/-- A 1-by-1 board with a single color region: the smallest solvable board. -/
def exGame1 : Game := ⟨1, 1, [0], fun _ => 0⟩

/-- The spec's unsolvable 2-by-2 board: region 0 holds the two cells of one
diagonal, region 1 the other. -/
def exGame2 : Game := ⟨2, 2, [0, 1], fun idx => if idx = 0 ∨ idx = 3 then 0 else 1⟩

/-- A 1-row, 2-column board: reaching depth `rows` leaves a column uncovered. -/
def exGame3 : Game := ⟨1, 2, [0], fun _ => 0⟩

/-! ### The claims -/

/-- C1: for every game with positive rows and every non-empty solution set
returned by `solve`, the set holds exactly `rows` cell indices; their rows are
pairwise distinct and cover every row, their columns are pairwise distinct and
cover every column, their color regions are pairwise distinct and cover every
color region, and no two of them are diagonally adjacent. -/
theorem claim1_solution_valid (g : Game) (_hWF : g.WF) (_hpos : 0 < g.rows)
    (hne : solve g ≠ ∅) :
    (solve g).card = g.rows ∧
    (∀ i ∈ solve g, ∀ j ∈ solve g, i ≠ j → cellRow g i ≠ cellRow g j) ∧
    (∀ r, r < g.rows → ∃ i ∈ solve g, cellRow g i = r) ∧
    (∀ i ∈ solve g, ∀ j ∈ solve g, i ≠ j → cellCol g i ≠ cellCol g j) ∧
    (∀ c, c < g.cols → ∃ i ∈ solve g, cellCol g i = c) ∧
    (∀ i ∈ solve g, ∀ j ∈ solve g, i ≠ j → g.idxToColor i ≠ g.idxToColor j) ∧
    (∀ c ∈ g.colors, ∃ i ∈ solve g, g.idxToColor i = c) ∧
    (∀ i ∈ solve g, ∀ j ∈ solve g, DiagTouch g i j = false) := by
  have hsound := fun st p hp => getCandidates_sound g st p hp
  rcases hflag : (solveBacktracking g (g.rows + 1) initState).1 with _ | _
  · have hres := solveBT_restore getCandidates g
      (fun st' q hq => (hsound st' q hq).2.2) (g.rows + 1) initState hflag
    have hsolve0 : solve g = ∅ := by
      show (solveBT getCandidates g (g.rows + 1) initState).2.solution.toFinset = ∅
      rw [hres]
      rfl
    exact absurd hsolve0 hne
  · have hfin := solveBT_success_inv getCandidates g hsound (g.rows + 1) initState
      (inv_initState g) hflag
    obtain ⟨hinv, hsolved⟩ := hfin
    have hVP := validPlacement_of_solved g _ hinv hsolved
    obtain ⟨hb, hrcov, hrinj, hccov, hcinj, hcocov, hcoinj, hnd⟩ := hVP
    have hsolve : solve g =
        (solveBT getCandidates g (g.rows + 1) initState).2.solution.toFinset := rfl
    refine ⟨?_, ?_, ?_, ?_, ?_, ?_, ?_, ?_⟩
    · rw [hsolve, List.toFinset_card_of_nodup (partialValid_nodup g hinv.2)]
      exact length_eq_rows_of_solved g _ hinv hsolved
    · intro i hi j hj hij heq
      exact hij (hrinj i (hsolve ▸ hi) j (hsolve ▸ hj) heq)
    · intro r hr
      obtain ⟨i, hi, h⟩ := hrcov r hr
      exact ⟨i, hsolve ▸ hi, h⟩
    · intro i hi j hj hij heq
      exact hij (hcinj i (hsolve ▸ hi) j (hsolve ▸ hj) heq)
    · intro c hc
      obtain ⟨i, hi, h⟩ := hccov c hc
      exact ⟨i, hsolve ▸ hi, h⟩
    · intro i hi j hj hij heq
      exact hij (hcoinj i (hsolve ▸ hi) j (hsolve ▸ hj) heq)
    · intro c hc
      obtain ⟨i, hi, h⟩ := hcocov c hc
      exact ⟨i, hsolve ▸ hi, h⟩
    · intro i hi j hj
      exact hnd i (hsolve ▸ hi) j (hsolve ▸ hj)

theorem claim1_witness :
    solve exGame1 ≠ ∅ ∧ (solve exGame1).card = exGame1.rows :=
  ⟨by decide, (claim1_solution_valid exGame1 (by decide) (by decide) (by decide)).1⟩

/-- C2: if the search exhausts without success, no valid placement exists at
all — the pruned search never misses a solution the brute-force oracle would
find. -/
theorem claim2_failure_complete (g : Game) (_hWF : g.WF) (hfail : solveFound g = false) :
    ¬∃ S : Finset Nat, ValidPlacement g S := by
  rintro ⟨S, hS⟩
  have hsound := fun st p hp => getCandidates_sound g st p hp
  have hsucc := solveBT_complete getCandidates g hsound (getCandidates_complete g)
    (g.rows + 1) initState S (inv_initState g) hS
    (fun idx h => absurd h (List.not_mem_nil idx))
    (by show g.rows < g.rows + 1 + ([] : List Nat).length; omega)
  rw [solveFound, solveBacktracking] at hfail
  rw [hsucc] at hfail
  exact Bool.noConfusion hfail

theorem claim2_witness :
    solveFound exGame2 = false ∧ ¬∃ S : Finset Nat, ValidPlacement exGame2 S :=
  ⟨by decide, claim2_failure_complete exGame2 (by decide) (by decide)⟩

/-- C3: the result of `solve` is either a collection of exactly `rows` cell
indices or the empty set, and with positive rows the failure result is never
conflated with a successful one: the search fails exactly when `solve`
returns the empty set. -/
theorem claim3_result_contract (g : Game) (_hWF : g.WF) (hpos : 0 < g.rows) :
    (solveFound g = false → solve g = ∅) ∧
    (solveFound g = true → (solve g).card = g.rows ∧ solve g ≠ ∅) := by
  have hsound := fun st p hp => getCandidates_sound g st p hp
  constructor
  · intro hfail
    rw [solveFound, solveBacktracking] at hfail
    have hres := solveBT_restore getCandidates g
      (fun st' q hq => (hsound st' q hq).2.2) (g.rows + 1) initState hfail
    rw [solve, solveBacktracking, hres]
    rfl
  · intro hflag
    rw [solveFound, solveBacktracking] at hflag
    have hfin := solveBT_success_inv getCandidates g hsound (g.rows + 1) initState
      (inv_initState g) hflag
    obtain ⟨hinv, hsolved⟩ := hfin
    have hcard : (solve g).card = g.rows := by
      rw [solve, solveBacktracking,
        List.toFinset_card_of_nodup (partialValid_nodup g hinv.2)]
      exact length_eq_rows_of_solved g _ hinv hsolved
    refine ⟨hcard, ?_⟩
    intro hempty
    rw [hempty, Finset.card_empty] at hcard
    omega

theorem claim3_witness : (solve exGame1).card = exGame1.rows ∧ solve exGame1 ≠ ∅ :=
  (claim3_result_contract exGame1 (by decide) (by decide)).2 (by decide)

/-- C4, counterexample: on the 1-by-2 board with one color region, the first
candidate of the root call is cell (0,0); placing it yields a reachable state
whose partial solution has length `rows`, yet the recursive call on that
state returns failure, because a column remains unused — refuting the claim
that depth `rows` succeeds regardless of the number of columns. -/
theorem claim4_counterexample :
    (getCandidates exGame3 initState).head? = some (0, 0) ∧
    (place exGame3 0 0 initState).solution.length = exGame3.rows ∧
    (solveBacktracking exGame3 exGame3.rows (place exGame3 0 0 initState)).1 = false := by
  decide

/-- C4, amended: for every game whose column count equals `rows` and whose
distinct color regions number exactly `rows`, every search state satisfying
the solver's invariant whose partial solution has length `rows` makes the
recursive call succeed immediately, returning the accumulated partial
solution. -/
theorem claim4_amended (g : Game) (hsq : g.cols = g.rows)
    (hcol : g.colors.length = g.rows) (hnod : g.colors.Nodup) (hWF : g.WF)
    (fuel : Nat) (st : SState) (hinv : Inv g st)
    (hlen : st.solution.length = g.rows) :
    solveBacktracking g (fuel + 1) st = (true, st) := by
  obtain ⟨hst, hv⟩ := hinv
  have hsolved : solved g st = true := by
    apply solved_intro g st hst
    · intro r hr
      have hcov := list_covers_of_nodup_card (st.solution.map (cellRow g))
        (Finset.range g.rows) hv.2.1
        (fun a ha => by
          obtain ⟨idx, hidx, rfl⟩ := List.mem_map.1 ha
          exact Finset.mem_range.2 (hv.1 idx hidx).1)
        (by rw [Finset.card_range, List.length_map, hlen])
      obtain ⟨idx, hidx, h⟩ := List.mem_map.1 (hcov r (Finset.mem_range.2 hr))
      exact ⟨idx, hidx, h⟩
    · intro c hc
      have hcov := list_covers_of_nodup_card (st.solution.map (cellCol g))
        (Finset.range g.cols) hv.2.2.1
        (fun a ha => by
          obtain ⟨idx, hidx, rfl⟩ := List.mem_map.1 ha
          exact Finset.mem_range.2 (hv.1 idx hidx).2)
        (by rw [Finset.card_range, List.length_map, hlen, hsq])
      obtain ⟨idx, hidx, h⟩ := List.mem_map.1 (hcov c (Finset.mem_range.2 hc))
      exact ⟨idx, hidx, h⟩
    · intro c hc
      have hcov := list_covers_of_nodup_card (st.solution.map g.idxToColor)
        g.colors.toFinset hv.2.2.2.1
        (fun a ha => by
          obtain ⟨idx, hidx, rfl⟩ := List.mem_map.1 ha
          exact List.mem_toFinset.2 (hWF.1 idx (partialValid_mem_lt g hv hidx)))
        (by rw [List.toFinset_card_of_nodup hnod, List.length_map, hlen, hcol])
      obtain ⟨idx, hidx, h⟩ := List.mem_map.1 (hcov c (List.mem_toFinset.2 hc))
      exact ⟨idx, hidx, h⟩
  show solveBT getCandidates g (fuel + 1) st = (true, st)
  simp only [solveBT, if_pos hsolved]

theorem claim4_witness :
    solveBacktracking exGame1 1 (stateOf exGame1 [0]) = (true, stateOf exGame1 [0]) :=
  claim4_amended exGame1 rfl rfl (by decide) (by decide) 0 (stateOf exGame1 [0])
    ⟨rfl, by decide⟩ rfl

/-- C5: every cell in the list returned by `getCandidates` has its row,
column and color region unused and zero adjacency pressure; and when the
forward check does not fire, every on-board cell satisfying those four
conditions appears in the returned list. -/
theorem claim5_candidates_characterization (g : Game) (st : SState) (row col : Nat) :
    ((row, col) ∈ getCandidates g st →
      st.rowUsed row = false ∧ st.colUsed col = false ∧
      st.colorUsed (g.idxToColor (cellIdx g row col)) = false ∧
      st.adjacentToUsed (cellIdx g row col) = 0) ∧
    (forwardCheckFailure g st = false → row < g.rows → col < g.cols →
      st.rowUsed row = false → st.colUsed col = false →
      st.colorUsed (g.idxToColor (cellIdx g row col)) = false →
      st.adjacentToUsed (cellIdx g row col) = 0 →
      (row, col) ∈ getCandidates g st) := by
  constructor
  · intro h
    exact cellOk_elim g st (getCandidates_sound g st (row, col) h).2.2
  · intro hfc hr hc h1 h2 h3 h4
    rw [mem_getCandidates]
    exact ⟨hfc, (mem_candList g st (row, col)).2
      ⟨hr, hc, cellOk_intro g st row col h1 h2 h3 h4⟩⟩

theorem claim5_witness :
    (initState.rowUsed 0 = false ∧ initState.colUsed 0 = false ∧
      initState.colorUsed (exGame1.idxToColor (cellIdx exGame1 0 0)) = false ∧
      initState.adjacentToUsed (cellIdx exGame1 0 0) = 0) ∧
    (0, 0) ∈ getCandidates exGame1 initState :=
  ⟨(claim5_candidates_characterization exGame1 initState 0 0).1 (by decide),
    (claim5_candidates_characterization exGame1 initState 0 0).2 (by decide) (by decide)
      (by decide) (by decide) (by decide) (by decide) (by decide)⟩

/-- C6: the solver finds a solution with forward-check pruning enabled if and
only if the same solver with the forward-check step removed finds one. -/
theorem claim6_forward_check_equivalence (g : Game) (_hWF : g.WF) :
    solveFound g = true ↔ solveFoundNoForwardCheck g = true := by
  have hsoundFC := fun st p hp => getCandidates_sound g st p hp
  have hsoundNo := fun st p hp => getCandidatesNoForwardCheck_sound g st p hp
  constructor
  · intro h
    rw [solveFound, solveBacktracking] at h
    obtain ⟨hinv, hsolved⟩ := solveBT_success_inv getCandidates g hsoundFC
      (g.rows + 1) initState (inv_initState g) h
    have hVP := validPlacement_of_solved g _ hinv hsolved
    exact solveBT_complete getCandidatesNoForwardCheck g hsoundNo
      (getCandidatesNoForwardCheck_complete g) (g.rows + 1) initState _
      (inv_initState g) hVP (fun idx hidx => absurd hidx (List.not_mem_nil idx))
      (by show g.rows < g.rows + 1 + ([] : List Nat).length; omega)
  · intro h
    obtain ⟨hinv, hsolved⟩ := solveBT_success_inv getCandidatesNoForwardCheck g hsoundNo
      (g.rows + 1) initState (inv_initState g) h
    have hVP := validPlacement_of_solved g _ hinv hsolved
    rw [solveFound, solveBacktracking]
    exact solveBT_complete getCandidates g hsoundFC
      (getCandidates_complete g) (g.rows + 1) initState _
      (inv_initState g) hVP (fun idx hidx => absurd hidx (List.not_mem_nil idx))
      (by show g.rows < g.rows + 1 + ([] : List Nat).length; omega)

theorem claim6_witness : solveFoundNoForwardCheck exGame1 = true :=
  (claim6_forward_check_equivalence exGame1 (by decide)).1 (by decide)

/-- C7: whenever `solveBacktracking` returns failure, the entire search state
is exactly what it was on entry — every placement on the failure path is
undone by its exact inverse — while on the success path nothing is undone:
the entry state's placements remain as a prefix of the returned solution. -/
theorem claim7_backtrack_restoration (g : Game) (fuel : Nat) (st : SState) :
    ((solveBacktracking g fuel st).1 = false → (solveBacktracking g fuel st).2 = st) ∧
    ((solveBacktracking g fuel st).1 = true →
      ∃ t, (solveBacktracking g fuel st).2.solution = st.solution ++ t) := by
  have hsound := fun st' p hp => (getCandidates_sound g st' p hp).2.2
  exact ⟨solveBT_restore getCandidates g hsound fuel st,
    solveBT_extends getCandidates g hsound fuel st⟩

theorem claim7_witness :
    (solveBacktracking exGame2 3 initState).2 = initState ∧
    ∃ t, (solveBacktracking exGame1 2 initState).2.solution = initState.solution ++ t :=
  ⟨(claim7_backtrack_restoration exGame2 3 initState).1 (by decide),
    (claim7_backtrack_restoration exGame1 2 initState).2 (by decide)⟩

/-- C8: at entry and at exit of every `solveBacktracking` call made from an
invariant state, the adjacency-pressure counter of every on-board cell equals
the number of currently placed markers diagonally adjacent to it, so
"eligible" (pressure zero) is accurate whenever candidates are computed. -/
theorem claim8_adjacency_invariant (g : Game) (fuel : Nat) (st : SState)
    (hinv : Inv g st) :
    (∀ i, i < g.rows * g.cols →
      st.adjacentToUsed i = (diagPressure g st.solution i : Int)) ∧
    (∀ i, i < g.rows * g.cols →
      (solveBacktracking g fuel st).2.adjacentToUsed i =
        (diagPressure g (solveBacktracking g fuel st).2.solution i : Int)) := by
  have hsound := fun st' p hp => getCandidates_sound g st' p hp
  constructor
  · intro i hi
    rw [hinv.1]
    exact stateOf_adjacent_eq_diagPressure g st.solution i hi
  · intro i hi
    have hres : Inv g (solveBacktracking g fuel st).2 :=
      solveBT_result_inv getCandidates g hsound fuel st hinv
    rw [hres.1]
    exact stateOf_adjacent_eq_diagPressure g _ i hi

theorem claim8_witness :
    (stateOf exGame2 [0]).adjacentToUsed 3 = (diagPressure exGame2 [0] 3 : Int) :=
  (claim8_adjacency_invariant exGame2 1 (stateOf exGame2 [0]) ⟨rfl, by decide⟩).1 3
    (by decide)

/-- C9: the search terminates — the recursion depth is bounded by the number
of rows, since every candidate occupies a previously unused row that is
marked used before recursing; formally, giving the search any fuel beyond
`rows + 1` cannot change its result from the initial state. -/
theorem claim9_termination (g : Game) (extra : Nat) :
    solveBacktracking g (g.rows + 1 + extra) initState =
      solveBacktracking g (g.rows + 1) initState := by
  apply solveBT_fuel_irrelevant getCandidates g
    (fun st p hp => getCandidates_sound g st p hp)
  · rw [freeRows_initState]; omega
  · rw [freeRows_initState]; omega

/-- The list of indices with which the solver subscripts the `colorToSpots`
array: the color of each tallied candidate cell (the tally loop and the sort
key) and every declared color identifier (the forward check). -/
def colorSpotsAccessIndices (g : Game) (st : SState) : List Nat :=
  ((candList g st).map fun p => g.idxToColor (cellIdx g p.1 p.2)) ++ g.colors

/-- C10: when the color identifiers are exactly natural numbers below the
number of distinct colors, every index used to subscript the `colorToSpots`
array — allocated with one slot per distinct color — is within bounds. -/
theorem claim10_color_index_bounds (g : Game) (st : SState)
    (_hnod : g.colors.Nodup)
    (hid : ∀ idx, idx < g.rows * g.cols → g.idxToColor idx ∈ g.colors)
    (hlt : ∀ c ∈ g.colors, c < g.colors.length) :
    ∀ a ∈ colorSpotsAccessIndices g st, a < g.colors.length := by
  intro a ha
  rw [colorSpotsAccessIndices, List.mem_append] at ha
  rcases ha with h | h
  · obtain ⟨p, hp, rfl⟩ := List.mem_map.1 h
    obtain ⟨hr, hc, _⟩ := (mem_candList g st p).1 hp
    exact hlt _ (hid _ (cellIdx_lt g hr hc))
  · exact hlt a h

theorem claim10_witness : 0 < exGame1.colors.length :=
  claim10_color_index_bounds exGame1 initState (by decide) (by decide) (by decide) 0
    (by decide)

end Queens
